import Mathlib

/-!
Verification of the MooseGesture library (moosegesture.py, version 0.1.4).

The development embeds the library's two components:

* the gesture matcher (`levenshteinDistance`, `findClosestMatchingGesture`),
  which is discrete and is embedded computably over `Nat` tokens
  (the source joins the single-digit direction tokens into strings and
  compares characters; a string of decimal digits is represented here by
  the list of its digit values, so string concatenation is list append and
  `int(...)` of a joined string is `digitsToNat`);

* the stroke segmenter (`getAngle`, `_getDirection`, `_getDistance`,
  `_identifyStrokes`, `getGesture`, `getSegments`) together with the
  process-wide configuration (`Config`, `setMinStrokeLen`), embedded over
  the real numbers (the source uses `math.sqrt` and `math.atan`).
-/

/-! ## Gesture matcher: Levenshtein distance

The source builds a `(len2+1) x (len1+1)` matrix row by row:
row `0` is `range(len1+1)`, and row `i+1` starts with `i+1` followed by
cells `min(left+1, up+1, diag (+1 if chars differ))`.  `rowStep`/`nextRow`
build one row, `levenshteinDistance` folds the rows over `s2` and reads the
bottom-right cell. -/

def rowStep {α : Type} [DecidableEq α] (y : α) :
    List α → List Nat → Nat → Nat → List Nat
  | x :: xs, pnext :: ps, left, diag =>
    (if x = y then min (min (left + 1) (pnext + 1)) diag
     else min (min (left + 1) (pnext + 1)) (diag + 1)) ::
      rowStep y xs ps
        (if x = y then min (min (left + 1) (pnext + 1)) diag
         else min (min (left + 1) (pnext + 1)) (diag + 1)) pnext
  | _, _, _, _ => []

def nextRow {α : Type} [DecidableEq α] (s1 : List α) (y : α)
    (prev : List Nat) : List Nat :=
  match prev with
  | [] => []
  | p0 :: ps => (p0 + 1) :: rowStep y s1 ps (p0 + 1) p0

def levenshteinDistance {α : Type} [DecidableEq α] (s1 s2 : List α) : Nat :=
  (s2.foldl (fun prev y => nextRow s1 y prev)
    (List.range (s1.length + 1))).getD s1.length 0

/-- Reference recursive form of the same recurrence (head recursion on
suffixes; the matrix works on prefixes, so the two are related through
`List.reverse`). -/
def levRec {α : Type} [DecidableEq α] : List α → List α → Nat
  | [], t => t.length
  | x :: s, [] => (x :: s).length
  | x :: s, y :: t =>
    if x = y then
      min (min (levRec (x :: s) t + 1) (levRec s (y :: t) + 1)) (levRec s t)
    else
      min (min (levRec (x :: s) t + 1) (levRec s (y :: t) + 1)) (levRec s t + 1)
termination_by s t => s.length + t.length
decreasing_by all_goals (simp only [List.length_cons]; omega)

theorem levRec_nil {α : Type} [DecidableEq α] (t : List α) :
    levRec [] t = t.length := by
  cases t <;> simp [levRec]

theorem levRec_nil_right {α : Type} [DecidableEq α] (s : List α) :
    levRec s [] = s.length := by
  cases s <;> simp [levRec]

theorem levRec_cons_cons {α : Type} [DecidableEq α] (x y : α) (s t : List α) :
    levRec (x :: s) (y :: t) =
      if x = y then
        min (min (levRec (x :: s) t + 1) (levRec s (y :: t) + 1)) (levRec s t)
      else
        min (min (levRec (x :: s) t + 1) (levRec s (y :: t) + 1))
          (levRec s t + 1) := by
  rw [levRec]

/-! ### Edit scripts

`EStep` is one insertion, deletion, or substitution of a single token;
`Reaches n s t` says `t` is obtained from `s` by `n` such steps.  The
metric laws for `levRec` are proved by showing `levRec s t` is exactly the
minimal script length. -/

inductive EStep {α : Type} : List α → List α → Prop
  | ins (pre suf : List α) (a : α) : EStep (pre ++ suf) (pre ++ a :: suf)
  | del (pre suf : List α) (a : α) : EStep (pre ++ a :: suf) (pre ++ suf)
  | sub (pre suf : List α) (a b : α) : EStep (pre ++ a :: suf) (pre ++ b :: suf)

inductive Reaches {α : Type} : Nat → List α → List α → Prop
  | refl (s : List α) : Reaches 0 s s
  | tail {n : Nat} {s t u : List α} :
      Reaches n s t → EStep t u → Reaches (n + 1) s u

theorem Reaches.trans {α : Type} {m n : Nat} {s t u : List α}
    (h1 : Reaches m s t) (h2 : Reaches n t u) : Reaches (m + n) s u := by
  induction h2 with
  | refl => exact h1
  | tail _ hstep ih => exact Nat.add_assoc m _ 1 ▸ Reaches.tail (ih h1) hstep

theorem EStep.single {α : Type} {s t : List α} (h : EStep s t) :
    Reaches 1 s t :=
  Reaches.tail (Reaches.refl s) h

theorem estep_cons {α : Type} {t u : List α} (a : α) (h : EStep t u) :
    EStep (a :: t) (a :: u) := by
  cases h with
  | ins pre suf b => exact EStep.ins (a :: pre) suf b
  | del pre suf b => exact EStep.del (a :: pre) suf b
  | sub pre suf b c => exact EStep.sub (a :: pre) suf b c

theorem reaches_cons {α : Type} {n : Nat} {t u : List α} (a : α)
    (h : Reaches n t u) : Reaches n (a :: t) (a :: u) := by
  induction h with
  | refl s => exact Reaches.refl (a :: s)
  | tail _ hstep ih => exact Reaches.tail ih (estep_cons a hstep)

theorem estep_symm {α : Type} {s t : List α} (h : EStep s t) : EStep t s := by
  cases h with
  | ins pre suf a => exact EStep.del pre suf a
  | del pre suf a => exact EStep.ins pre suf a
  | sub pre suf a b => exact EStep.sub pre suf b a

theorem reaches_symm {α : Type} {n : Nat} {s t : List α}
    (h : Reaches n s t) : Reaches n t s := by
  induction h with
  | refl s => exact Reaches.refl s
  | tail _ hstep ih =>
    have h1 := (estep_symm hstep).single
    have := h1.trans ih
    simpa [Nat.add_comm] using this

theorem Reaches.nil_to {α : Type} (t : List α) : Reaches t.length [] t := by
  induction t with
  | nil => exact Reaches.refl []
  | cons a t ih => exact Reaches.tail ih (EStep.ins [] t a)

theorem Reaches.to_nil {α : Type} (s : List α) : Reaches s.length s [] := by
  simpa using reaches_symm (Reaches.nil_to s)

theorem levRec_self {α : Type} [DecidableEq α] (s : List α) :
    levRec s s = 0 := by
  induction s with
  | nil => simp [levRec_nil]
  | cons x s ih => rw [levRec_cons_cons]; simp [ih]

theorem levRec_insHead {α : Type} [DecidableEq α] (s t : List α) (a : α) :
    levRec s (a :: t) ≤ levRec s t + 1 := by
  cases s with
  | nil => simp [levRec_nil]
  | cons x s => rw [levRec_cons_cons]; split_ifs <;> omega

theorem levRec_delLeft {α : Type} [DecidableEq α] (x : α) (s t : List α) :
    levRec (x :: s) t ≤ levRec s t + 1 := by
  cases t with
  | nil => simp [levRec_nil_right]
  | cons y t => rw [levRec_cons_cons]; split_ifs <;> omega

theorem levRec_delHead {α : Type} [DecidableEq α] (s t : List α) (a : α) :
    levRec s t ≤ levRec s (a :: t) + 1 := by
  induction s with
  | nil => simp only [levRec_nil, List.length_cons]; omega
  | cons x s ih =>
    have h1 := levRec_delLeft x s t
    rw [levRec_cons_cons x a s t]
    split_ifs <;> omega

theorem levRec_subHead {α : Type} [DecidableEq α] (s t : List α) (a b : α) :
    levRec s (b :: t) ≤ levRec s (a :: t) + 1 := by
  induction s with
  | nil => simp [levRec_nil]
  | cons x s ih =>
    rw [levRec_cons_cons x b s t, levRec_cons_cons x a s t]
    split_ifs <;> omega

theorem levRec_liftCons {α : Type} [DecidableEq α] {t u : List α}
    (h : ∀ s : List α, levRec s u ≤ levRec s t + 1) (a : α) :
    ∀ s : List α, levRec s (a :: u) ≤ levRec s (a :: t) + 1 := by
  intro s
  induction s with
  | nil =>
    have h0 := h []
    simp only [levRec_nil] at h0 ⊢
    simp only [List.length_cons]
    omega
  | cons x s ih =>
    have h1 := h (x :: s)
    have h2 := h s
    rw [levRec_cons_cons x a s u, levRec_cons_cons x a s t]
    split_ifs <;> omega

theorem estep_levRec_le {α : Type} [DecidableEq α] {t u : List α}
    (h : EStep t u) : ∀ s : List α, levRec s u ≤ levRec s t + 1 := by
  cases h with
  | ins pre suf a =>
    induction pre with
    | nil => exact fun s => levRec_insHead s suf a
    | cons p pre ih => exact levRec_liftCons ih p
  | del pre suf a =>
    induction pre with
    | nil => exact fun s => levRec_delHead s suf a
    | cons p pre ih => exact levRec_liftCons ih p
  | sub pre suf a b =>
    induction pre with
    | nil => exact fun s => levRec_subHead s suf a b
    | cons p pre ih => exact levRec_liftCons ih p

theorem reaches_levRec_le {α : Type} [DecidableEq α] {n : Nat} {s t : List α}
    (h : Reaches n s t) : levRec s t ≤ n := by
  induction h with
  | refl s => simp [levRec_self]
  | tail _ hstep ih => exact le_trans (estep_levRec_le hstep _) (by omega)

theorem levRec_reaches_aux {α : Type} [DecidableEq α] :
    ∀ (n : Nat) (s t : List α), s.length + t.length ≤ n →
      Reaches (levRec s t) s t := by
  intro n
  induction n with
  | zero =>
    intro s t h
    match s, t with
    | [], [] => exact levRec_self ([] : List α) ▸ Reaches.refl []
    | x :: s, t => simp only [List.length_cons] at h; omega
    | [], y :: t => simp only [List.length_cons] at h; omega
  | succ n ih =>
    intro s t h
    match s, t with
    | [], t => exact levRec_nil t ▸ Reaches.nil_to t
    | x :: s, [] => exact levRec_nil_right (x :: s) ▸ Reaches.to_nil (x :: s)
    | x :: s, y :: t =>
      simp only [List.length_cons] at h
      have hst : Reaches (levRec s t) s t := ih s t (by omega)
      have hAt : Reaches (levRec (x :: s) t) (x :: s) t := ih (x :: s) t (by simp; omega)
      have hBt : Reaches (levRec s (y :: t)) s (y :: t) := ih s (y :: t) (by simp; omega)
      by_cases hxy : x = y
      · rw [levRec_cons_cons, if_pos hxy]
        have hd : min (min (levRec (x :: s) t + 1) (levRec s (y :: t) + 1))
              (levRec s t) = levRec (x :: s) t + 1 ∨
            min (min (levRec (x :: s) t + 1) (levRec s (y :: t) + 1))
              (levRec s t) = levRec s (y :: t) + 1 ∨
            min (min (levRec (x :: s) t + 1) (levRec s (y :: t) + 1))
              (levRec s t) = levRec s t := by omega
        rcases hd with hd | hd | hd <;> rw [hd]
        · exact Reaches.tail hAt (EStep.ins [] t y)
        · have := ((EStep.del [] s x).single).trans hBt
          simpa [Nat.add_comm] using this
        · subst hxy
          exact reaches_cons x hst
      · rw [levRec_cons_cons, if_neg hxy]
        have hd : min (min (levRec (x :: s) t + 1) (levRec s (y :: t) + 1))
              (levRec s t + 1) = levRec (x :: s) t + 1 ∨
            min (min (levRec (x :: s) t + 1) (levRec s (y :: t) + 1))
              (levRec s t + 1) = levRec s (y :: t) + 1 ∨
            min (min (levRec (x :: s) t + 1) (levRec s (y :: t) + 1))
              (levRec s t + 1) = levRec s t + 1 := by omega
        rcases hd with hd | hd | hd <;> rw [hd]
        · exact Reaches.tail hAt (EStep.ins [] t y)
        · have := ((EStep.del [] s x).single).trans hBt
          simpa [Nat.add_comm] using this
        · exact Reaches.tail (reaches_cons x hst) (EStep.sub [] t x y)

theorem levRec_reaches {α : Type} [DecidableEq α] (s t : List α) :
    Reaches (levRec s t) s t :=
  levRec_reaches_aux (s.length + t.length) s t le_rfl

theorem levRec_comm {α : Type} [DecidableEq α] (s t : List α) :
    levRec s t = levRec t s :=
  le_antisymm (reaches_levRec_le (reaches_symm (levRec_reaches t s)))
    (reaches_levRec_le (reaches_symm (levRec_reaches s t)))

theorem levRec_triangle {α : Type} [DecidableEq α] (s t u : List α) :
    levRec s u ≤ levRec s t + levRec t u :=
  reaches_levRec_le ((levRec_reaches s t).trans (levRec_reaches t u))

/-! ### Bridging the matrix computation with the recursive form

`levPre p q` is the edit distance of the prefixes `p`, `q` (computed by
`levRec` on the reversed lists, so that the recurrence peels off the LAST
elements, exactly as a matrix cell does).  `prefRow f xs q` lists the cells
of one matrix row to the right of column `f.length`. -/

def levPre {α : Type} [DecidableEq α] (p q : List α) : Nat :=
  levRec p.reverse q.reverse

theorem levPre_nil_left {α : Type} [DecidableEq α] (q : List α) :
    levPre [] q = q.length := by
  simp [levPre, levRec_nil]

theorem levPre_nil_right {α : Type} [DecidableEq α] (p : List α) :
    levPre p [] = p.length := by
  simp [levPre, levRec_nil_right]

theorem levPre_snoc_snoc {α : Type} [DecidableEq α] (p q : List α) (x y : α) :
    levPre (p ++ [x]) (q ++ [y]) =
      if x = y then
        min (min (levPre (p ++ [x]) q + 1) (levPre p (q ++ [y]) + 1))
          (levPre p q)
      else
        min (min (levPre (p ++ [x]) q + 1) (levPre p (q ++ [y]) + 1))
          (levPre p q + 1) := by
  simp only [levPre, List.reverse_append, List.reverse_cons, List.reverse_nil,
    List.nil_append, List.cons_append, List.singleton_append]
  rw [levRec_cons_cons]

def prefRow {α : Type} [DecidableEq α] (f xs q : List α) : List Nat :=
  match xs with
  | [] => []
  | x :: xs2 => levPre (f ++ [x]) q :: prefRow (f ++ [x]) xs2 q

theorem rowStep_spec {α : Type} [DecidableEq α] (y : α) :
    ∀ (xs f q : List α),
      rowStep y xs (prefRow f xs q) (levPre f (q ++ [y])) (levPre f q) =
        prefRow f xs (q ++ [y]) := by
  intro xs
  induction xs with
  | nil => intro f q; simp [rowStep, prefRow]
  | cons x xs ih =>
    intro f q
    have hv :
        (if x = y then
          min (min (levPre f (q ++ [y]) + 1) (levPre (f ++ [x]) q + 1))
            (levPre f q)
        else
          min (min (levPre f (q ++ [y]) + 1) (levPre (f ++ [x]) q + 1))
            (levPre f q + 1)) = levPre (f ++ [x]) (q ++ [y]) := by
      rw [levPre_snoc_snoc]
      split_ifs <;> omega
    simp only [prefRow, rowStep]
    rw [hv, ih (f ++ [x]) q]

theorem nextRow_spec {α : Type} [DecidableEq α] (s1 q : List α) (y : α) :
    nextRow s1 y (levPre [] q :: prefRow [] s1 q) =
      levPre [] (q ++ [y]) :: prefRow [] s1 (q ++ [y]) := by
  have h0 : levPre ([] : List α) q + 1 = levPre ([] : List α) (q ++ [y]) := by
    simp [levPre_nil_left]
  simp only [nextRow]
  rw [h0, rowStep_spec y s1 [] q]

theorem foldRows_spec {α : Type} [DecidableEq α] (s1 : List α) :
    ∀ (ys q : List α),
      List.foldl (fun prev y => nextRow s1 y prev)
          (levPre [] q :: prefRow [] s1 q) ys =
        levPre [] (q ++ ys) :: prefRow [] s1 (q ++ ys) := by
  intro ys
  induction ys with
  | nil => intro q; simp
  | cons y ys ih =>
    intro q
    simp only [List.foldl_cons]
    rw [nextRow_spec s1 q y, ih (q ++ [y])]
    simp

theorem prefRow_nil {α : Type} [DecidableEq α] :
    ∀ (xs f : List α), prefRow f xs [] = List.range' (f.length + 1) xs.length := by
  intro xs
  induction xs with
  | nil => intro f; simp [prefRow]
  | cons x xs ih =>
    intro f
    simp only [prefRow, levPre_nil_right, List.length_append, List.length_cons,
      List.length_nil, List.range'_succ _ _ 1]
    rw [ih (f ++ [x])]
    simp

theorem fullRow_getD {α : Type} [DecidableEq α] :
    ∀ (xs f q : List α),
      (levPre f q :: prefRow f xs q).getD xs.length 0 = levPre (f ++ xs) q := by
  intro xs
  induction xs with
  | nil => intro f q; simp [prefRow]
  | cons x xs ih =>
    intro f q
    simp only [prefRow, List.length_cons, List.getD_cons_succ]
    rw [ih (f ++ [x]) q]
    simp

theorem levenshteinDistance_eq_levRec {α : Type} [DecidableEq α]
    (s1 s2 : List α) :
    levenshteinDistance s1 s2 = levRec s1.reverse s2.reverse := by
  have hinit : List.range (s1.length + 1) =
      levPre ([] : List α) [] :: prefRow [] s1 [] := by
    rw [prefRow_nil s1 [], levPre_nil_right, List.range_eq_range',
      List.range'_succ 0 s1.length 1]
    simp
  unfold levenshteinDistance
  rw [hinit, foldRows_spec s1 s2 []]
  simpa [levPre] using fullRow_getD s1 [] s2

theorem levenshteinDistance_self {α : Type} [DecidableEq α] (s : List α) :
    levenshteinDistance s s = 0 := by
  rw [levenshteinDistance_eq_levRec, levRec_self]

theorem levenshteinDistance_comm {α : Type} [DecidableEq α] (s t : List α) :
    levenshteinDistance s t = levenshteinDistance t s := by
  rw [levenshteinDistance_eq_levRec, levenshteinDistance_eq_levRec,
    levRec_comm]

theorem levenshteinDistance_triangle {α : Type} [DecidableEq α]
    (s t u : List α) :
    levenshteinDistance s u ≤
      levenshteinDistance s t + levenshteinDistance t u := by
  rw [levenshteinDistance_eq_levRec, levenshteinDistance_eq_levRec,
    levenshteinDistance_eq_levRec]
  exact levRec_triangle s.reverse t.reverse u.reverse

/-! ## Gesture matcher: findClosestMatchingGesture

The source takes the candidate strokes and each template, joins them with
`''.join(...)` into strings of digit characters, removes duplicates with
`frozenset`, groups the templates by Levenshtein distance to the candidate,
and looks at the group of minimal distance.  If that group has exactly one
member and the minimal distance is within tolerance, it returns
`[int(x) for x in group]` -- which converts the single JOINED string to ONE
integer (e.g. the group `["62"]` becomes `[62]`), otherwise `None`.

A string of decimal digits is modelled by the list of its digit values, so
joining tokens is the identity on the token list and `int` of a joined
string is `digitsToNat`.  The decision (which group is minimal, whether it
is a singleton) depends only on the SET of deduplicated templates, so the
arbitrary iteration order of `frozenset` is irrelevant; `List.dedup` is
used here.  `tolerance` defaults to `sys.maxsize`. -/

def maxsize : Nat := 2 ^ 63 - 1

def digitsToNat (g : List Nat) : Nat := g.foldl (fun acc d => 10 * acc + d) 0

def smallestDistance (strokes : List Nat) (gl : List (List Nat)) : Nat :=
  (gl.map (levenshteinDistance strokes)).foldr min
    ((gl.map (levenshteinDistance strokes)).headD 0)

def findClosestMatchingGesture (strokes : List Nat)
    (gestureList : List (List Nat)) (tolerance : Nat := maxsize) :
    Option (List Nat) :=
  if gestureList.length = 0 then none
  else if
      (gestureList.dedup.filter
        (fun g => levenshteinDistance strokes g =
          smallestDistance strokes gestureList.dedup)).length = 1
      ∧ smallestDistance strokes gestureList.dedup ≤ tolerance then
    some ((gestureList.dedup.filter
      (fun g => levenshteinDistance strokes g =
        smallestDistance strokes gestureList.dedup)).map digitsToNat)
  else none

theorem foldr_min_le_mem (l : List Nat) (x : Nat) :
    ∀ y ∈ l, l.foldr min x ≤ y := by
  induction l with
  | nil => simp
  | cons a l ih =>
    intro y hy
    simp only [List.foldr_cons]
    rcases List.mem_cons.mp hy with h | h
    · exact h ▸ min_le_left _ _
    · exact le_trans (min_le_right _ _) (ih y h)

theorem foldr_min_mem (l : List Nat) (x : Nat) :
    l.foldr min x ∈ x :: l := by
  induction l with
  | nil => simp
  | cons a l ih =>
    simp only [List.foldr_cons]
    rcases le_total a (l.foldr min x) with h | h
    · simp [min_eq_left h]
    · rw [min_eq_right h]
      rcases List.mem_cons.mp ih with h2 | h2
      · rw [h2]; exact List.mem_cons_self _ _
      · exact List.mem_cons_of_mem _ (List.mem_cons_of_mem _ h2)

theorem headD_mem {β : Type} {l : List β} (h : l ≠ []) (d : β) :
    l.headD d ∈ l := by
  cases l with
  | nil => exact absurd rfl h
  | cons a l => simp

theorem smallestDistance_spec_mem (strokes : List Nat) (gl : List (List Nat))
    (h : gl ≠ []) :
    ∃ g ∈ gl, levenshteinDistance strokes g = smallestDistance strokes gl := by
  have hmem := foldr_min_mem (gl.map (levenshteinDistance strokes))
    ((gl.map (levenshteinDistance strokes)).headD 0)
  have hne : gl.map (levenshteinDistance strokes) ≠ [] := by simp [h]
  have hin : smallestDistance strokes gl ∈ gl.map (levenshteinDistance strokes) := by
    rcases List.mem_cons.mp hmem with h2 | h2
    · rw [smallestDistance, h2]
      exact headD_mem hne 0
    · exact h2
  rcases List.mem_map.mp hin with ⟨g, hg, hgeq⟩
  exact ⟨g, hg, hgeq⟩

theorem smallestDistance_le (strokes : List Nat) (gl : List (List Nat))
    (g : List Nat) (hg : g ∈ gl) :
    smallestDistance strokes gl ≤ levenshteinDistance strokes g :=
  foldr_min_le_mem _ _ _ (List.mem_map_of_mem _ hg)

theorem two_le_length_of_mem {β : Type} {l : List β} {a b : β}
    (ha : a ∈ l) (hb : b ∈ l) (hne : a ≠ b) : 2 ≤ l.length := by
  cases l with
  | nil => simp at ha
  | cons x l2 =>
    cases l2 with
    | nil =>
      simp only [List.mem_singleton] at ha hb
      exact absurd (ha.trans hb.symm) hne
    | cons y l3 => simp only [List.length_cons]; omega

/-- C4: Edit distance metric laws.  For all token sequences `s`, `s1`, `s2`,
`s3` we have `levenshteinDistance s s = 0`, symmetry, the triangle
inequality, and on the classic worked example (kitten vs sitting, mapped
onto the token alphabet k=11, i=1, t=2, e=3, n=4, s=5, g=6) the distance
is 3. -/
theorem levenshteinDistance_metric_laws :
    (∀ s : List Nat, levenshteinDistance s s = 0) ∧
    (∀ s1 s2 : List Nat,
      levenshteinDistance s1 s2 = levenshteinDistance s2 s1) ∧
    (∀ s1 s2 s3 : List Nat,
      levenshteinDistance s1 s2 ≤
        levenshteinDistance s1 s3 + levenshteinDistance s3 s2) ∧
    levenshteinDistance [11, 1, 2, 2, 3, 4] [5, 1, 2, 2, 1, 4, 6] = 3 :=
  ⟨fun s => levenshteinDistance_self s,
   fun s1 s2 => levenshteinDistance_comm s1 s2,
   fun s1 s2 s3 => levenshteinDistance_triangle s1 s3 s2,
   by decide⟩

/-- C2: Matcher tie rejection.  Whenever two distinct templates in the
template list both attain the minimum Levenshtein distance to the
candidate, `findClosestMatchingGesture` returns `none`, whatever the
tolerance is. -/
theorem matcher_tie_rejection (strokes g1 g2 : List Nat)
    (gestureList : List (List Nat)) (tolerance : Nat)
    (h1 : g1 ∈ gestureList) (h2 : g2 ∈ gestureList) (hne : g1 ≠ g2)
    (heq : levenshteinDistance strokes g1 = levenshteinDistance strokes g2)
    (hmin : ∀ g ∈ gestureList,
      levenshteinDistance strokes g1 ≤ levenshteinDistance strokes g) :
    findClosestMatchingGesture strokes gestureList tolerance = none := by
  have hnil : gestureList ≠ [] := List.ne_nil_of_mem h1
  have hg1 : g1 ∈ gestureList.dedup := List.mem_dedup.mpr h1
  have hg2 : g2 ∈ gestureList.dedup := List.mem_dedup.mpr h2
  have hdne : gestureList.dedup ≠ [] := List.ne_nil_of_mem hg1
  obtain ⟨g0, hg0, hg0eq⟩ :=
    smallestDistance_spec_mem strokes gestureList.dedup hdne
  have hm1 : levenshteinDistance strokes g1 =
      smallestDistance strokes gestureList.dedup :=
    le_antisymm (hg0eq ▸ hmin g0 (List.mem_dedup.mp hg0))
      (smallestDistance_le _ _ _ hg1)
  have hm2 : levenshteinDistance strokes g2 =
      smallestDistance strokes gestureList.dedup := heq ▸ hm1
  have hf1 : g1 ∈ gestureList.dedup.filter
      (fun g => levenshteinDistance strokes g =
        smallestDistance strokes gestureList.dedup) :=
    List.mem_filter.mpr ⟨hg1, by simp [hm1]⟩
  have hf2 : g2 ∈ gestureList.dedup.filter
      (fun g => levenshteinDistance strokes g =
        smallestDistance strokes gestureList.dedup) :=
    List.mem_filter.mpr ⟨hg2, by simp [hm2]⟩
  have hlen2 := two_le_length_of_mem hf1 hf2 hne
  unfold findClosestMatchingGesture
  rw [if_neg (by simp [hnil]), if_neg (by rintro ⟨hl, _⟩; omega)]

/-- Witness for C2: candidate `[6]` is at distance 1 from both `[2]` and
`[8]`, a tie, so the matcher reports no match even with tolerance 5. -/
theorem matcher_tie_rejection_witness :
    findClosestMatchingGesture [6] [[2], [8]] 5 = none :=
  matcher_tie_rejection [6] [2] [8] [[2], [8]] 5 (by decide) (by decide)
    (by decide) (by decide) (by decide)

/-- C3 (code bug): candidate `[6]` and template list `[[6,2]]`, whose unique
best match `[6,2]` is at distance exactly `d = 1`.  With tolerance `d` the
source does NOT return the template: line 183 of moosegesture.py runs
`[int(x) for x in distances[smallestKey]]` over the GROUP (a one-element
list holding the joined string "62"), producing `[62]`, which contradicts
the module docstring's `gesture == [2, 4, 2]` example.  With tolerance
`d - 1 = 0` it returns no match, as claimed. -/
theorem matcher_tolerance_boundary_bug :
    findClosestMatchingGesture [6] [[6, 2]] 1 = some [62] ∧
    findClosestMatchingGesture [6] [[6, 2]] 0 = none ∧
    some [62] ≠ some [(6 : Nat), 2] := by decide

/-! ## Stroke segmenter: geometry and configuration

Points are pairs of reals (the source accepts ints and floats and uses
`math.sqrt` / `math.atan`, modelled by `Real.sqrt` / `Real.arctan`). -/

abbrev Point := ℝ × ℝ

noncomputable def _getDistance (pos1 pos2 : Point) : ℝ :=
  Real.sqrt ((pos1.1 - pos2.1) * (pos1.1 - pos2.1) +
    (pos1.2 - pos2.2) * (pos1.2 - pos2.2))

noncomputable def getAngle (origin pos : Point) : ℝ :=
  let x := pos.1 - origin.1
  let y := pos.2 - origin.2
  if x = 0 then
    if y ≤ 0 then 90.0 else 270.0
  else
    let angle := Real.arctan (y / x) * (180 / Real.pi)
    let adjusted :=
      if 0 ≤ y ∧ 0 ≤ x then 90 - angle + 270
      else if 0 ≤ y ∧ x < 0 then -angle + 180
      else if y < 0 ∧ x < 0 then 90 - angle + 90
      else -angle
    if adjusted = 360.0 then 0.0 else adjusted

def DOWNLEFT : Nat := 1
def DOWN : Nat := 2
def DOWNRIGHT : Nat := 3
def LEFT : Nat := 4
def RIGHT : Nat := 6
def UPLEFT : Nat := 7
def UP : Nat := 8
def UPRIGHT : Nat := 9

inductive Mode : Type
  | all
  | cross
  | diagonal

/-- The `elif` chain of `_getDirection`, applied to the already computed
angle.  A fall-through (impossible for angles in `[0, 360)`) is `none`,
matching the implicit `return None` of the Python function. -/
noncomputable def directionFromAngle (mode : Mode) (angle : ℝ) : Option Nat :=
  match mode with
  | Mode.all =>
    if 337.5 ≤ angle ∨ angle < 22.5 then some RIGHT
    else if 22.5 ≤ angle ∧ angle < 67.5 then some UPRIGHT
    else if 67.5 ≤ angle ∧ angle < 112.5 then some UP
    else if 112.5 ≤ angle ∧ angle < 157.5 then some UPLEFT
    else if 157.5 ≤ angle ∧ angle < 202.5 then some LEFT
    else if 202.5 ≤ angle ∧ angle < 247.5 then some DOWNLEFT
    else if 247.5 ≤ angle ∧ angle < 292.5 then some DOWN
    else if 292.5 ≤ angle ∧ angle < 337.5 then some DOWNRIGHT
    else none
  | Mode.cross =>
    if 315 ≤ angle ∨ angle < 45 then some RIGHT
    else if 45 ≤ angle ∧ angle < 135 then some UP
    else if 135 ≤ angle ∧ angle < 225 then some LEFT
    else if 225 ≤ angle ∧ angle < 315 then some DOWN
    else none
  | Mode.diagonal =>
    if 0 ≤ angle ∧ angle < 90 then some UPRIGHT
    else if 90 ≤ angle ∧ angle < 180 then some UPLEFT
    else if 180 ≤ angle ∧ angle < 270 then some DOWNLEFT
    else if 270 ≤ angle then some DOWNRIGHT
    else none

noncomputable def _getDirection (pos1 pos2 : Point) (mode : Mode) :
    Option Nat :=
  directionFromAngle mode (getAngle pos1 pos2)

/-- The two process-wide configuration scalars `_MIN_SEG_LEN` and
`_MIN_P2P_DISTANCE`. -/
structure Config : Type where
  minSegLen : ℝ
  minP2P : ℝ

def defaultConfig : Config := ⟨60, 10⟩

noncomputable def setMinStrokeLen (val : ℝ) (cfg : Config) : Config :=
  ⟨val, if val < cfg.minP2P then val else cfg.minP2P⟩

def getMinStrokeLen (cfg : Config) : ℝ := cfg.minSegLen

/-- C9: Configuration clamp. `setMinStrokeLen v` sets the minimum stroke
length to `v`, lowers the point-to-point minimum to `v` exactly when `v`
is below its current value, leaves it unchanged otherwise, and afterwards
the point-to-point minimum never exceeds the minimum stroke length. -/
theorem setMinStrokeLen_spec (v : ℝ) (cfg : Config) :
    (setMinStrokeLen v cfg).minSegLen = v ∧
    (v < cfg.minP2P → (setMinStrokeLen v cfg).minP2P = v) ∧
    (¬ v < cfg.minP2P → (setMinStrokeLen v cfg).minP2P = cfg.minP2P) ∧
    (setMinStrokeLen v cfg).minP2P ≤ (setMinStrokeLen v cfg).minSegLen := by
  unfold setMinStrokeLen
  by_cases h : v < cfg.minP2P
  · simp [h]
  · simp [h]
    linarith [not_lt.mp h]

/-- Witness for C9 at `v = 5` starting from the default configuration
`(60, 10)`: the stroke length becomes 5 and the point-to-point minimum is
clamped down to 5 as well. -/
theorem setMinStrokeLen_spec_witness :
    (setMinStrokeLen 5 defaultConfig).minSegLen = 5 ∧
    (setMinStrokeLen 5 defaultConfig).minP2P = 5 :=
  ⟨(setMinStrokeLen_spec 5 defaultConfig).1,
   (setMinStrokeLen_spec 5 defaultConfig).2.1 (by norm_num [defaultConfig])⟩

theorem deg_lt_90 (s : ℝ) : Real.arctan s * (180 / Real.pi) < 90 := by
  have hpi := Real.pi_pos
  have hc : Real.pi / 2 * (180 / Real.pi) = 90 := by
    field_simp
    ring
  have h1 := Real.arctan_lt_pi_div_two s
  have h2 : (0:ℝ) < 180 / Real.pi := by positivity
  have := mul_lt_mul_of_pos_right h1 h2
  rwa [hc] at this

theorem neg_90_lt_deg (s : ℝ) : -90 < Real.arctan s * (180 / Real.pi) := by
  have hpi := Real.pi_pos
  have hc : Real.pi / 2 * (180 / Real.pi) = 90 := by
    field_simp
    ring
  have h1 := Real.neg_pi_div_two_lt_arctan s
  have h2 : (0:ℝ) < 180 / Real.pi := by positivity
  have h3 := mul_lt_mul_of_pos_right h1 h2
  have h4 : -(Real.pi / 2) * (180 / Real.pi) = -90 := by
    rw [neg_mul, hc]
  rwa [h4] at h3

theorem deg_nonneg (s : ℝ) (hs : 0 ≤ s) :
    0 ≤ Real.arctan s * (180 / Real.pi) := by
  have h1 : Real.arctan 0 ≤ Real.arctan s := Real.arctan_strictMono.monotone hs
  rw [Real.arctan_zero] at h1
  have h2 : (0:ℝ) < 180 / Real.pi := by positivity
  exact mul_nonneg h1 h2.le

theorem deg_nonpos (s : ℝ) (hs : s ≤ 0) :
    Real.arctan s * (180 / Real.pi) ≤ 0 := by
  have h1 : Real.arctan s ≤ Real.arctan 0 := Real.arctan_strictMono.monotone hs
  rw [Real.arctan_zero] at h1
  have h2 : (0:ℝ) < 180 / Real.pi := by positivity
  exact mul_nonpos_iff.mpr (Or.inr ⟨h1, h2.le⟩)

theorem deg_pos (s : ℝ) (hs : 0 < s) :
    0 < Real.arctan s * (180 / Real.pi) := by
  have h1 : Real.arctan 0 < Real.arctan s := Real.arctan_strictMono hs
  rw [Real.arctan_zero] at h1
  have h2 : (0:ℝ) < 180 / Real.pi := by positivity
  exact mul_pos h1 h2

theorem deg_neg (s : ℝ) (hs : s < 0) :
    Real.arctan s * (180 / Real.pi) < 0 := by
  have h1 : Real.arctan s < Real.arctan 0 := Real.arctan_strictMono hs
  rw [Real.arctan_zero] at h1
  have h2 : (0:ℝ) < 180 / Real.pi := by positivity
  exact mul_neg_of_neg_of_pos h1 h2

/-- C6: Angle computation. `getAngle` always lands in `[0, 360)` (a raw
result of exactly 360 is normalized to 0), and when the x-displacement is
zero it is exactly 90 when the endpoint is at or above the origin in
screen coordinates (y-displacement at most 0, including the degenerate
zero-length case) and exactly 270 otherwise. -/
theorem getAngle_spec (origin pos : Point) :
    (0 ≤ getAngle origin pos ∧ getAngle origin pos < 360) ∧
    (pos.1 - origin.1 = 0 →
      ((pos.2 - origin.2 ≤ 0 → getAngle origin pos = 90) ∧
       (0 < pos.2 - origin.2 → getAngle origin pos = 270))) := by
  have hB1 := deg_lt_90 ((pos.2 - origin.2) / (pos.1 - origin.1))
  have hB2 := neg_90_lt_deg ((pos.2 - origin.2) / (pos.1 - origin.1))
  constructor
  · simp only [getAngle]
    split_ifs with h1 h2 h3 h4 h5 h6 h7 h8 h9
    · norm_num
    · norm_num
    · norm_num
    · -- lower-right quadrant, adjusted not 360
      have hx : 0 < pos.1 - origin.1 := lt_of_le_of_ne h3.2 (Ne.symm h1)
      have hs : 0 ≤ (pos.2 - origin.2) / (pos.1 - origin.1) :=
        div_nonneg h3.1 hx.le
      have ha0 := deg_nonneg _ hs
      have hane : Real.arctan ((pos.2 - origin.2) / (pos.1 - origin.1)) *
          (180 / Real.pi) ≠ 0 := by
        intro h0
        apply h4
        rw [h0]
        norm_num
      have hapos := lt_of_le_of_ne ha0 (Ne.symm hane)
      constructor <;> linarith
    · norm_num
    · -- lower-left quadrant, adjusted not 360
      have hs : (pos.2 - origin.2) / (pos.1 - origin.1) ≤ 0 :=
        div_nonpos_of_nonneg_of_nonpos h5.1 h5.2.le
      have ha0 := deg_nonpos _ hs
      constructor <;> linarith
    · norm_num
    · -- upper-left quadrant, adjusted not 360
      have hs : 0 < (pos.2 - origin.2) / (pos.1 - origin.1) :=
        div_pos_iff.mpr (Or.inr ⟨h7.1, h7.2⟩)
      have ha0 := deg_pos _ hs
      constructor <;> linarith
    · norm_num
    · -- upper-right quadrant, adjusted not 360
      push_neg at h3 h5 h7
      have hyneg : pos.2 - origin.2 < 0 := by
        by_contra hc
        push_neg at hc
        exact absurd (h3 hc) (not_lt.mpr (h5 hc))
      have hxpos : 0 < pos.1 - origin.1 :=
        lt_of_le_of_ne (h7 hyneg) (Ne.symm h1)
      have hs : (pos.2 - origin.2) / (pos.1 - origin.1) < 0 :=
        div_neg_of_neg_of_pos hyneg hxpos
      have ha0 := deg_neg _ hs
      constructor <;> linarith
  · intro hx0
    constructor <;> intro hy0
    · simp [getAngle, hx0, hy0]
      norm_num
    · simp [getAngle, hx0, not_le.mpr hy0]
      norm_num

/-- Witness for C6: origin `(0,0)` and endpoint `(0,-5)` have zero
x-displacement and the endpoint above the origin, so the angle is exactly
90; and for `(5,5)` the angle is within the `[0,360)` range. -/
theorem getAngle_spec_witness :
    getAngle (0, 0) (0, -5) = 90 ∧ 0 ≤ getAngle (0, 0) (5, 5) :=
  ⟨((getAngle_spec (0, 0) (0, -5)).2 (by norm_num)).1 (by norm_num),
   ((getAngle_spec (0, 0) (5, 5)).1).1⟩

/-- C5: Direction-bucket totality.  For every angle in `[0, 360)` the
classifier returns `some` token of the mode's valid set (being a function,
it can only return one value per angle, so there is neither a gap nor an
overlap, boundary angles included); in mode `all` the token is `RIGHT`
exactly on `[337.5, 360) ∪ [0, 22.5)`. -/
theorem directionFromAngle_total (angle : ℝ) (h0 : 0 ≤ angle)
    (h1 : angle < 360) :
    (∃ d, directionFromAngle Mode.all angle = some d ∧
      d ∈ [1, 2, 3, 4, 6, 7, 8, 9]) ∧
    (directionFromAngle Mode.all angle = some RIGHT ↔
      (337.5 ≤ angle ∨ angle < 22.5)) ∧
    (∃ d, directionFromAngle Mode.cross angle = some d ∧
      d ∈ [2, 4, 6, 8]) ∧
    (∃ d, directionFromAngle Mode.diagonal angle = some d ∧
      d ∈ [1, 3, 7, 9]) := by
  refine ⟨?_, ?_, ?_, ?_⟩
  · simp only [directionFromAngle]
    split_ifs with hA hB hC hD hE hF hG hH
    · exact ⟨RIGHT, rfl, by decide⟩
    · exact ⟨UPRIGHT, rfl, by decide⟩
    · exact ⟨UP, rfl, by decide⟩
    · exact ⟨UPLEFT, rfl, by decide⟩
    · exact ⟨LEFT, rfl, by decide⟩
    · exact ⟨DOWNLEFT, rfl, by decide⟩
    · exact ⟨DOWN, rfl, by decide⟩
    · exact ⟨DOWNRIGHT, rfl, by decide⟩
    · exfalso
      have h337 := not_le.mp (not_or.mp hA).1
      have h225 := not_lt.mp (not_or.mp hA).2
      have h675 := not_lt.mp (not_and.mp hB h225)
      have h1125 := not_lt.mp (not_and.mp hC h675)
      have h1575 := not_lt.mp (not_and.mp hD h1125)
      have h2025 := not_lt.mp (not_and.mp hE h1575)
      have h2475 := not_lt.mp (not_and.mp hF h2025)
      have h2925 := not_lt.mp (not_and.mp hG h2475)
      have h3375 := not_lt.mp (not_and.mp hH h2925)
      linarith
  · simp only [directionFromAngle]
    split_ifs with hA hB hC hD hE hF hG hH
    · simp [hA]
    · simp [RIGHT, UPRIGHT, hA]
    · simp [RIGHT, UP, hA]
    · simp [RIGHT, UPLEFT, hA]
    · simp [RIGHT, LEFT, hA]
    · simp [RIGHT, DOWNLEFT, hA]
    · simp [RIGHT, DOWN, hA]
    · simp [RIGHT, DOWNRIGHT, hA]
    · simp [hA]
  · simp only [directionFromAngle]
    split_ifs with hA hB hC hD
    · exact ⟨RIGHT, rfl, by decide⟩
    · exact ⟨UP, rfl, by decide⟩
    · exact ⟨LEFT, rfl, by decide⟩
    · exact ⟨DOWN, rfl, by decide⟩
    · exfalso
      have h315 := not_le.mp (not_or.mp hA).1
      have h45 := not_lt.mp (not_or.mp hA).2
      have h135 := not_lt.mp (not_and.mp hB h45)
      have h225 := not_lt.mp (not_and.mp hC h135)
      have h315b := not_lt.mp (not_and.mp hD h225)
      linarith
  · simp only [directionFromAngle]
    split_ifs with hA hB hC hD
    · exact ⟨UPRIGHT, rfl, by decide⟩
    · exact ⟨UPLEFT, rfl, by decide⟩
    · exact ⟨DOWNLEFT, rfl, by decide⟩
    · exact ⟨DOWNRIGHT, rfl, by decide⟩
    · exfalso
      have h90 := not_lt.mp (not_and.mp hA h0)
      have h180 := not_lt.mp (not_and.mp hB h90)
      have h270 := not_lt.mp (not_and.mp hC h180)
      exact hD h270

/-- Witness for C5 at the boundary angle 22.5: it falls in exactly the
UPRIGHT bucket of mode `all` and is not classified RIGHT. -/
theorem directionFromAngle_total_witness :
    (∃ d, directionFromAngle Mode.all 22.5 = some d ∧
      d ∈ [1, 2, 3, 4, 6, 7, 8, 9]) ∧
    ¬ (directionFromAngle Mode.all 22.5 = some RIGHT) := by
  have h := directionFromAngle_total 22.5 (by norm_num) (by norm_num)
  refine ⟨h.1, ?_⟩
  intro hc
  rcases h.2.1.mp hc with h2 | h2 <;> norm_num at h2

/-! ## Stroke segmenter: _identifyStrokes

The source's nested loops, in order:

* the inner `while i < curSegPoint+1` loop (`innerScan`): walks point
  pairs inside the candidate segment, accumulating a point-to-point
  distance that resets after each computed direction, and checks that all
  computed directions agree (`consistent`);
* the `for curSegPoint in range(startSegPoint, len(points)-1)` loop
  accumulating `segmentDist` until it reaches the minimum stroke length
  (`findThreshold`); when the threshold is never reached the loop variable
  is left at its final value `len(points)-2`, with no direction resolved
  (`resolveStart`);
* the outer `for startSegPoint in range(len(points)-1)` loop (`outerStep`
  folded by `_identifyStrokes`) which appends a stroke, or lengthens the
  last emitted stroke (`updateLastEnd`), per start index. -/

noncomputable def innerScan (cfg : Config) (points : List Point)
    (distances : List ℝ) (mode : Mode) (curSegPoint : Nat) (i : Nat)
    (ptp : ℝ) (np : Nat) (curDir direction : Option Nat) :
    Bool × Option Nat :=
  if h : i < curSegPoint + 1 then
    if points.length ≤ i + (np + 1) then (true, direction)
    else if ptp + distances.getD i 0 < cfg.minP2P then
      innerScan cfg points distances mode curSegPoint (i + 1)
        (ptp + distances.getD i 0) (np + 1) curDir direction
    else
      match curDir with
      | none =>
          innerScan cfg points distances mode curSegPoint (i + (np + 1)) 0 0
            (_getDirection (points.getD i (0, 0))
              (points.getD (i + (np + 1)) (0, 0)) mode)
            (_getDirection (points.getD i (0, 0))
              (points.getD (i + (np + 1)) (0, 0)) mode)
      | some cd =>
          if _getDirection (points.getD i (0, 0))
              (points.getD (i + (np + 1)) (0, 0)) mode = some cd then
            innerScan cfg points distances mode curSegPoint (i + (np + 1)) 0 0
              (some cd) (some cd)
          else
            (false,
              _getDirection (points.getD i (0, 0))
                (points.getD (i + (np + 1)) (0, 0)) mode)
  else (true, direction)
termination_by curSegPoint + 1 - i
decreasing_by all_goals omega

noncomputable def findThreshold (cfg : Config) (distances : List ℝ)
    (last : Nat) (cur : Nat) (segmentDist : ℝ) : Option Nat :=
  if h : cur ≤ last then
    if cfg.minSegLen ≤ segmentDist + distances.getD cur 0 then some cur
    else findThreshold cfg distances last (cur + 1)
      (segmentDist + distances.getD cur 0)
  else none
termination_by last + 1 - cur
decreasing_by omega

noncomputable def resolveStart (cfg : Config) (points : List Point)
    (distances : List ℝ) (mode : Mode) (s : Nat) :
    Bool × Option Nat × Nat :=
  match findThreshold cfg distances (points.length - 2) s 0 with
  | some e =>
      let r := innerScan cfg points distances mode e s 0 0 none none
      (r.1, r.2, e)
  | none => (true, none, points.length - 2)

def updateLastEnd : List (Nat × Nat) → Nat → List (Nat × Nat)
  | [], _ => []
  | [p], e => [(p.1, e)]
  | p :: q :: rest, e => p :: updateLastEnd (q :: rest) e

noncomputable def outerStep (cfg : Config) (points : List Point)
    (distances : List ℝ) (mode : Mode)
    (acc : List Nat × List (Nat × Nat)) (s : Nat) :
    List Nat × List (Nat × Nat) :=
  let r := resolveStart cfg points distances mode s
  if r.1 = false then acc
  else
    match r.2.1 with
    | some d =>
        if acc.1 = [] ∨ acc.1.getLast? ≠ some d then
          (acc.1 ++ [d], acc.2 ++ [(s, r.2.2)])
        else if acc.2 ≠ [] then (acc.1, updateLastEnd acc.2 r.2.2)
        else acc
    | none =>
        if acc.2 ≠ [] then (acc.1, updateLastEnd acc.2 r.2.2)
        else acc

noncomputable def _identifyStrokes (cfg : Config) (points : List Point)
    (mode : Mode) : List Nat × List (Nat × Nat) :=
  (List.range (points.length - 1)).foldl
    (outerStep cfg points (List.zipWith _getDistance points points.tail) mode)
    ([], [])

noncomputable def getGesture (cfg : Config) (points : List Point)
    (mode : Mode) : List Nat :=
  (_identifyStrokes cfg points mode).1

noncomputable def getSegments (cfg : Config) (points : List Point)
    (mode : Mode) : List (Nat × Nat) :=
  (_identifyStrokes cfg points mode).2

theorem updateLastEnd_fst :
    ∀ (l : List (Nat × Nat)) (e : Nat),
      (updateLastEnd l e).map Prod.fst = l.map Prod.fst := by
  intro l
  induction l with
  | nil => intro e; rfl
  | cons p l ih =>
    intro e
    cases l with
    | nil => rfl
    | cons q rest =>
      rw [updateLastEnd]
      simp only [List.map_cons]
      rw [ih e]
      simp

theorem mem_updateLastEnd :
    ∀ (l : List (Nat × Nat)) (e : Nat) (q : Nat × Nat),
      q ∈ updateLastEnd l e → q ∈ l ∨ ∃ p, p ∈ l ∧ q = (p.1, e) := by
  intro l
  induction l with
  | nil => intro e q hq; simp [updateLastEnd] at hq
  | cons p l ih =>
    intro e q hq
    cases l with
    | nil =>
      simp only [updateLastEnd, List.mem_singleton] at hq
      exact Or.inr ⟨p, List.mem_cons_self p [], hq⟩
    | cons r rest =>
      rw [updateLastEnd] at hq
      rcases List.mem_cons.mp hq with h | h
      · exact Or.inl (h ▸ List.mem_cons_self p (r :: rest))
      · rcases ih e q h with h2 | ⟨p2, hp2, he⟩
        · exact Or.inl (List.mem_cons_of_mem p h2)
        · exact Or.inr ⟨p2, List.mem_cons_of_mem p hp2, he⟩

theorem updateLastEnd_ne_nil :
    ∀ (l : List (Nat × Nat)) (e : Nat), l ≠ [] → updateLastEnd l e ≠ [] := by
  intro l e h
  cases l with
  | nil => exact absurd rfl h
  | cons p l2 => cases l2 <;> simp [updateLastEnd]

theorem updateLastEnd_getLast? :
    ∀ (l : List (Nat × Nat)) (e : Nat),
      (updateLastEnd l e).getLast? = l.getLast?.map (fun p => (p.1, e)) := by
  intro l
  induction l with
  | nil => intro e; rfl
  | cons p l ih =>
    intro e
    cases l with
    | nil => rfl
    | cons r rest =>
      cases hu : updateLastEnd (r :: rest) e with
      | nil => exact absurd hu (updateLastEnd_ne_nil (r :: rest) e (by simp))
      | cons u us =>
        rw [updateLastEnd, hu, List.getLast?_cons_cons, ← hu, ih e,
          List.getLast?_cons_cons]

theorem chain_fst_updateLastEnd (l : List (Nat × Nat)) (e : Nat)
    (h : List.Chain' (fun p q : Nat × Nat => p.1 ≤ q.1) l) :
    List.Chain' (fun p q : Nat × Nat => p.1 ≤ q.1) (updateLastEnd l e) := by
  have h2 : List.Chain' (fun
      a b : Nat => a ≤ b) (l.map Prod.fst) :=
    (List.chain'_map Prod.fst).mpr h
  have h3 := updateLastEnd_fst l e
  have h4 : List.Chain' (fun a b : Nat => a ≤ b)
      ((updateLastEnd l e).map Prod.fst) := by rw [h3]; exact h2
  exact (List.chain'_map Prod.fst).mp h4

theorem findThreshold_ge (cfg : Config) (distances : List ℝ) (last : Nat) :
    ∀ (fuel cur : Nat) (sd : ℝ) (e : Nat), last + 1 - cur ≤ fuel →
      findThreshold cfg distances last cur sd = some e →
      cur ≤ e ∧ e ≤ last := by
  intro fuel
  induction fuel with
  | zero =>
    intro cur sd e hf he
    unfold findThreshold at he
    rw [dif_neg (by omega)] at he
    exact absurd he (by simp)
  | succ fuel ih =>
    intro cur sd e hf he
    unfold findThreshold at he
    by_cases hc : cur ≤ last
    · rw [dif_pos hc] at he
      by_cases ht : cfg.minSegLen ≤ sd + distances.getD cur 0
      · rw [if_pos ht] at he
        obtain rfl := Option.some.inj he
        exact ⟨le_rfl, hc⟩
      · rw [if_neg ht] at he
        have h2 := ih (cur + 1) _ e (by omega) he
        exact ⟨by omega, h2.2⟩
    · rw [dif_neg hc] at he
      exact absurd he (by simp)

theorem resolveStart_ge (cfg : Config) (points : List Point)
    (distances : List ℝ) (mode : Mode) (s : Nat)
    (hs : s + 1 < points.length) :
    s ≤ (resolveStart cfg points distances mode s).2.2 ∧
    (resolveStart cfg points distances mode s).2.2 ≤ points.length - 2 := by
  unfold resolveStart
  cases hft : findThreshold cfg distances (points.length - 2) s 0 with
  | some e =>
    have h2 := findThreshold_ge cfg distances (points.length - 2)
      (points.length - 2 + 1 - s) s 0 e le_rfl hft
    simpa using h2
  | none =>
    simp only []
    constructor
    · omega
    · exact le_rfl

theorem outerStep_chain (cfg : Config) (points : List Point)
    (distances : List ℝ) (mode : Mode) (acc : List Nat × List (Nat × Nat))
    (s : Nat) (h : List.Chain' (fun a b : Nat => a ≠ b) acc.1) :
    List.Chain' (fun a b : Nat => a ≠ b)
      (outerStep cfg points distances mode acc s).1 := by
  simp only [outerStep]
  by_cases hc : (resolveStart cfg points distances mode s).1 = false
  · rw [if_pos hc]; exact h
  · rw [if_neg hc]
    cases hd : (resolveStart cfg points distances mode s).2.1 with
    | none =>
      dsimp only
      by_cases hll : acc.2 ≠ []
      · rw [if_pos hll]; exact h
      · rw [if_neg hll]; exact h
    | some d =>
      dsimp only
      by_cases hl : acc.1 = [] ∨ acc.1.getLast? ≠ some d
      · rw [if_pos hl]
        apply List.Chain'.append h (List.chain'_singleton d)
        intro x hx y hy
        simp only [List.head?_cons, Option.mem_def, Option.some.injEq] at hy
        subst hy
        rcases hl with h1 | h1
        · rw [h1] at hx; simp at hx
        · intro he
          apply h1
          rw [← he]
          exact hx
      · rw [if_neg hl]
        by_cases hll : acc.2 ≠ []
        · rw [if_pos hll]; exact h
        · rw [if_neg hll]; exact h

theorem foldl_outerStep_chain (cfg : Config) (points : List Point)
    (distances : List ℝ) (mode : Mode) :
    ∀ (l : List Nat) (acc : List Nat × List (Nat × Nat)),
      List.Chain' (fun a b : Nat => a ≠ b) acc.1 →
      List.Chain' (fun a b : Nat => a ≠ b)
        (l.foldl (outerStep cfg points distances mode) acc).1 := by
  intro l
  induction l with
  | nil => intro acc h; exact h
  | cons x l ih =>
    intro acc h
    simp only [List.foldl_cons]
    exact ih _ (outerStep_chain cfg points distances mode acc x h)

/-- C7: Deduplication invariant.  For every configuration, input point
sequence and mode, the direction sequence produced by the segmenter never
contains two consecutive equal tokens. -/
theorem gesture_dedup_invariant (cfg : Config) (points : List Point)
    (mode : Mode) :
    List.Chain' (fun a b : Nat => a ≠ b) (getGesture cfg points mode) := by
  unfold getGesture _identifyStrokes
  exact foldl_outerStep_chain cfg points _ mode _ ([], []) List.chain'_nil

theorem outerStep_ranges (cfg : Config) (points : List Point)
    (distances : List ℝ) (mode : Mode) (acc : List Nat × List (Nat × Nat))
    (s b : Nat) (hb : b ≤ s) (hs : s + 1 < points.length)
    (h1 : ∀ p ∈ acc.2, p.1 ≤ p.2) (h2 : ∀ p ∈ acc.2, p.1 ≤ b)
    (h3 : List.Chain' (fun p q : Nat × Nat => p.1 ≤ q.1) acc.2) :
    (∀ p ∈ (outerStep cfg points distances mode acc s).2, p.1 ≤ p.2) ∧
    (∀ p ∈ (outerStep cfg points distances mode acc s).2, p.1 ≤ s) ∧
    List.Chain' (fun p q : Nat × Nat => p.1 ≤ q.1)
      (outerStep cfg points distances mode acc s).2 := by
  have hre := resolveStart_ge cfg points distances mode s hs
  have hkeep :
      (∀ p ∈ acc.2, p.1 ≤ p.2) ∧ (∀ p ∈ acc.2, p.1 ≤ s) ∧
      List.Chain' (fun p q : Nat × Nat => p.1 ≤ q.1) acc.2 :=
    ⟨h1, fun p hp => le_trans (h2 p hp) hb, h3⟩
  have hupd :
      (∀ p ∈ updateLastEnd acc.2 (resolveStart cfg points distances mode s).2.2,
        p.1 ≤ p.2) ∧
      (∀ p ∈ updateLastEnd acc.2 (resolveStart cfg points distances mode s).2.2,
        p.1 ≤ s) ∧
      List.Chain' (fun p q : Nat × Nat => p.1 ≤ q.1)
        (updateLastEnd acc.2 (resolveStart cfg points distances mode s).2.2) := by
    refine ⟨?_, ?_, chain_fst_updateLastEnd acc.2 _ h3⟩
    · intro p hp
      rcases mem_updateLastEnd acc.2 _ p hp with hq | ⟨q, hq, he⟩
      · exact h1 p hq
      · rw [he]
        exact le_trans (le_trans (h2 q hq) hb) hre.1
    · intro p hp
      rcases mem_updateLastEnd acc.2 _ p hp with hq | ⟨q, hq, he⟩
      · exact le_trans (h2 p hq) hb
      · rw [he]
        exact le_trans (h2 q hq) hb
  have happ :
      (∀ p ∈ acc.2 ++ [(s, (resolveStart cfg points distances mode s).2.2)],
        p.1 ≤ p.2) ∧
      (∀ p ∈ acc.2 ++ [(s, (resolveStart cfg points distances mode s).2.2)],
        p.1 ≤ s) ∧
      List.Chain' (fun p q : Nat × Nat => p.1 ≤ q.1)
        (acc.2 ++ [(s, (resolveStart cfg points distances mode s).2.2)]) := by
    refine ⟨?_, ?_, ?_⟩
    · intro p hp
      rcases List.mem_append.mp hp with hq | hq
      · exact h1 p hq
      · rw [List.mem_singleton.mp hq]
        exact hre.1
    · intro p hp
      rcases List.mem_append.mp hp with hq | hq
      · exact le_trans (h2 p hq) hb
      · rw [List.mem_singleton.mp hq]
    · apply List.Chain'.append h3 (List.chain'_singleton _)
      intro x hx y hy
      simp only [List.head?_cons, Option.mem_def, Option.some.injEq] at hy
      subst hy
      have hxm := List.mem_of_mem_getLast? hx
      exact le_trans (le_trans (h2 x hxm) hb) le_rfl
  simp only [outerStep]
  by_cases hc : (resolveStart cfg points distances mode s).1 = false
  · rw [if_pos hc]; exact hkeep
  · rw [if_neg hc]
    cases hd : (resolveStart cfg points distances mode s).2.1 with
    | none =>
      dsimp only
      by_cases hll : acc.2 ≠ []
      · rw [if_pos hll]; exact hupd
      · rw [if_neg hll]; exact hkeep
    | some d =>
      dsimp only
      by_cases hl : acc.1 = [] ∨ acc.1.getLast? ≠ some d
      · rw [if_pos hl]; exact happ
      · rw [if_neg hl]
        by_cases hll : acc.2 ≠ []
        · rw [if_pos hll]; exact hupd
        · rw [if_neg hll]; exact hkeep

theorem foldl_outerStep_ranges (cfg : Config) (points : List Point)
    (distances : List ℝ) (mode : Mode) :
    ∀ (l : List Nat) (acc : List Nat × List (Nat × Nat)) (b : Nat),
      (∀ x ∈ l, b ≤ x ∧ x + 1 < points.length) →
      List.Pairwise (fun a c : Nat => a ≤ c) l →
      (∀ p ∈ acc.2, p.1 ≤ p.2) → (∀ p ∈ acc.2, p.1 ≤ b) →
      List.Chain' (fun p q : Nat × Nat => p.1 ≤ q.1) acc.2 →
      (∀ p ∈ (l.foldl (outerStep cfg points distances mode) acc).2,
        p.1 ≤ p.2) ∧
      List.Chain' (fun p q : Nat × Nat => p.1 ≤ q.1)
        (l.foldl (outerStep cfg points distances mode) acc).2 := by
  intro l
  induction l with
  | nil => intro acc b _ _ h1 _ h3; exact ⟨h1, h3⟩
  | cons x l ih =>
    intro acc b hmem hpw h1 h2 h3
    simp only [List.foldl_cons]
    have hx := hmem x (List.mem_cons_self x l)
    have hstep := outerStep_ranges cfg points distances mode acc x b hx.1
      hx.2 h1 h2 h3
    apply ih _ x
    · intro y hy
      exact ⟨(List.pairwise_cons.mp hpw).1 y hy, (hmem y (List.mem_cons_of_mem x hy)).2⟩
    · exact (List.pairwise_cons.mp hpw).2
    · exact hstep.1
    · exact hstep.2.1
    · exact hstep.2.2

/-- C8: Range monotonicity.  For every configuration, input point sequence
and mode, every emitted range `(start, end)` satisfies `start ≤ end`, and
the start indices are monotonically non-decreasing across the emitted
sequence. -/
theorem segments_range_monotone (cfg : Config) (points : List Point)
    (mode : Mode) :
    (∀ p ∈ getSegments cfg points mode, p.1 ≤ p.2) ∧
    List.Chain' (fun p q : Nat × Nat => p.1 ≤ q.1)
      (getSegments cfg points mode) := by
  unfold getSegments _identifyStrokes
  apply foldl_outerStep_ranges cfg points _ mode (List.range (points.length - 1))
    ([], []) 0
  · intro x hx
    rw [List.mem_range] at hx
    exact ⟨Nat.zero_le x, by omega⟩
  · exact (List.pairwise_lt_range _).imp le_of_lt
  · simp
  · simp
  · exact List.chain'_nil

/-- C10 (implicit tail-extension): whenever at least one stroke has been
emitted (the accumulated range list is nonempty) and a later candidate
start index `s` resolves no direction at all (the scan stays consistent
but `direction` remains `None`, as happens when the trailing accumulated
distance never reaches the minimum stroke length), the outer loop body
still extends the end index of the LAST emitted range to the final scanned
pair index `e`, leaving the stroke tokens unchanged -- so a reported range
can cover trailing points that never established any direction. -/
theorem outerStep_tail_extension (cfg : Config) (points : List Point)
    (distances : List ℝ) (mode : Mode) (strokes : List Nat)
    (segs : List (Nat × Nat)) (s e : Nat)
    (hres : resolveStart cfg points distances mode s = (true, none, e))
    (hne : segs ≠ []) :
    outerStep cfg points distances mode (strokes, segs) s =
      (strokes, updateLastEnd segs e) ∧
    (updateLastEnd segs e).getLast? =
      segs.getLast?.map (fun p => (p.1, e)) := by
  refine ⟨?_, updateLastEnd_getLast? segs e⟩
  simp only [outerStep, hres]
  simp [hne]

/-- Witness for C10: points `(0,0), (100,0), (100,5)` with pair distances
100 and 5.  Start index 0 emits the stroke RIGHT with range `(0,0)`; at
start index 1 the remaining distance 5 never reaches the 60 pixel
threshold, no direction is resolved, and the last range is extended to
`(0,1)`, covering the trailing points. -/
theorem outerStep_tail_extension_witness :
    outerStep defaultConfig [((0:ℝ), (0:ℝ)), (100, 0), (100, 5)]
      ([100, 5] : List ℝ) Mode.all ([6], [(0, 0)]) 1 = ([6], [(0, 1)]) := by
  have hft : findThreshold defaultConfig ([100, 5] : List ℝ) 1 1 0 = none := by
    unfold findThreshold
    rw [dif_pos (by norm_num)]
    rw [if_neg (by norm_num [defaultConfig, List.getD_cons_succ,
      List.getD_cons_zero])]
    unfold findThreshold
    rw [dif_neg (by norm_num)]
  have hres : resolveStart defaultConfig
      [((0:ℝ), (0:ℝ)), (100, 0), (100, 5)] ([100, 5] : List ℝ)
      Mode.all 1 = (true, none, 1) := by
    unfold resolveStart
    have hl : ([((0:ℝ), (0:ℝ)), (100, 0), (100, 5)] : List Point).length - 2
        = 1 := by simp
    rw [hl, hft]
  have h := outerStep_tail_extension defaultConfig
    [((0:ℝ), (0:ℝ)), (100, 0), (100, 5)] ([100, 5] : List ℝ) Mode.all
    [6] [(0, 0)] 1 1 hres (by simp)
  rw [h.1]
  rfl

/-! ## End-to-end scenario: a clean L-shape

Points `(0,0) -> (100,0) -> (100,100)`: 100 pixels right, then 100 pixels
down (screen coordinates), both legs well above the 60 pixel minimum. -/

def lshapePoints : List Point := [(0, 0), (100, 0), (100, 100)]

theorem getDistance_right_leg :
    _getDistance ((0:ℝ), (0:ℝ)) ((100:ℝ), (0:ℝ)) = 100 := by
  unfold _getDistance
  norm_num
  rw [show (10000:ℝ) = 100 ^ 2 by norm_num]
  exact Real.sqrt_sq (by norm_num)

theorem getDistance_down_leg :
    _getDistance ((100:ℝ), (0:ℝ)) ((100:ℝ), (100:ℝ)) = 100 := by
  unfold _getDistance
  norm_num
  rw [show (10000:ℝ) = 100 ^ 2 by norm_num]
  exact Real.sqrt_sq (by norm_num)

theorem getAngle_right_leg :
    getAngle ((0:ℝ), (0:ℝ)) ((100:ℝ), (0:ℝ)) = 0 := by
  simp only [getAngle]
  norm_num [Real.arctan_zero]

theorem getAngle_down_leg :
    getAngle ((100:ℝ), (0:ℝ)) ((100:ℝ), (100:ℝ)) = 270 := by
  simp only [getAngle]
  norm_num

theorem getDirection_right_leg :
    _getDirection ((0:ℝ), (0:ℝ)) ((100:ℝ), (0:ℝ)) Mode.all = some 6 := by
  unfold _getDirection
  rw [getAngle_right_leg]
  simp only [directionFromAngle]
  rw [if_pos (Or.inr (by norm_num : (0:ℝ) < 22.5))]
  rfl

theorem getDirection_down_leg :
    _getDirection ((100:ℝ), (0:ℝ)) ((100:ℝ), (100:ℝ)) Mode.all = some 2 := by
  unfold _getDirection
  rw [getAngle_down_leg]
  simp only [directionFromAngle]
  rw [if_neg (by norm_num), if_neg (by norm_num), if_neg (by norm_num),
    if_neg (by norm_num), if_neg (by norm_num), if_neg (by norm_num),
    if_pos (by norm_num : (247.5:ℝ) ≤ 270 ∧ (270:ℝ) < 292.5)]
  rfl

theorem lshape_distances :
    List.zipWith _getDistance lshapePoints lshapePoints.tail
      = ([100, 100] : List ℝ) := by
  simp only [lshapePoints, List.tail_cons, List.zipWith_cons_cons,
    List.zipWith_nil_right]
  rw [getDistance_right_leg, getDistance_down_leg]

theorem lshape_ft0 :
    findThreshold defaultConfig ([100, 100] : List ℝ) 1 0 0 = some 0 := by
  unfold findThreshold
  rw [dif_pos (by norm_num)]
  rw [if_pos (by norm_num [defaultConfig,
    show ([100, 100] : List ℝ).getD 0 0 = 100 from rfl])]

theorem lshape_ft1 :
    findThreshold defaultConfig ([100, 100] : List ℝ) 1 1 0 = some 1 := by
  unfold findThreshold
  rw [dif_pos (by norm_num)]
  rw [if_pos (by norm_num [defaultConfig,
    show ([100, 100] : List ℝ).getD 1 0 = 100 from rfl])]

theorem lshape_inner0 :
    innerScan defaultConfig lshapePoints ([100, 100] : List ℝ) Mode.all 0 0 0 0
      none none = (true, some 6) := by
  unfold innerScan
  rw [dif_pos (by norm_num)]
  rw [if_neg (by norm_num [show lshapePoints.length = 3 from rfl])]
  rw [if_neg (by norm_num [defaultConfig,
    show ([100, 100] : List ℝ).getD 0 0 = 100 from rfl])]
  dsimp only
  rw [show lshapePoints.getD 0 ((0:ℝ), (0:ℝ)) = ((0:ℝ), (0:ℝ)) from rfl]
  rw [show lshapePoints.getD (0 + (0 + 1)) ((0:ℝ), (0:ℝ)) = ((100:ℝ), (0:ℝ))
    from rfl]
  rw [getDirection_right_leg]
  unfold innerScan
  rw [dif_neg (by norm_num)]

theorem lshape_inner1 :
    innerScan defaultConfig lshapePoints ([100, 100] : List ℝ) Mode.all 1 1 0 0
      none none = (true, some 2) := by
  unfold innerScan
  rw [dif_pos (by norm_num)]
  rw [if_neg (by norm_num [show lshapePoints.length = 3 from rfl])]
  rw [if_neg (by norm_num [defaultConfig,
    show ([100, 100] : List ℝ).getD 1 0 = 100 from rfl])]
  dsimp only
  rw [show lshapePoints.getD 1 ((0:ℝ), (0:ℝ)) = ((100:ℝ), (0:ℝ)) from rfl]
  rw [show lshapePoints.getD (1 + (0 + 1)) ((0:ℝ), (0:ℝ)) = ((100:ℝ), (100:ℝ))
    from rfl]
  rw [getDirection_down_leg]
  unfold innerScan
  rw [dif_neg (by norm_num)]

theorem lshape_resolve0 :
    resolveStart defaultConfig lshapePoints ([100, 100] : List ℝ) Mode.all 0
      = (true, some 6, 0) := by
  unfold resolveStart
  rw [show lshapePoints.length - 2 = 1 from rfl]
  rw [lshape_ft0]
  dsimp only
  rw [lshape_inner0]

theorem lshape_resolve1 :
    resolveStart defaultConfig lshapePoints ([100, 100] : List ℝ) Mode.all 1
      = (true, some 2, 1) := by
  unfold resolveStart
  rw [show lshapePoints.length - 2 = 1 from rfl]
  rw [lshape_ft1]
  dsimp only
  rw [lshape_inner1]

theorem lshape_step0 :
    outerStep defaultConfig lshapePoints ([100, 100] : List ℝ) Mode.all
      ([], []) 0 = ([6], [(0, 0)]) := by
  simp only [outerStep, lshape_resolve0]
  simp

theorem lshape_step1 :
    outerStep defaultConfig lshapePoints ([100, 100] : List ℝ) Mode.all
      ([6], [(0, 0)]) 1 = ([6, 2], [(0, 0), (1, 1)]) := by
  simp only [outerStep, lshape_resolve1]
  simp

theorem lshape_identify :
    _identifyStrokes defaultConfig lshapePoints Mode.all
      = ([6, 2], [(0, 0), (1, 1)]) := by
  unfold _identifyStrokes
  rw [lshape_distances]
  rw [show lshapePoints.length - 1 = 2 from rfl]
  rw [show List.range 2 = [0, 1] from rfl]
  simp only [List.foldl_cons, List.foldl_nil]
  rw [lshape_step0, lshape_step1]

/-- C1 (code bug): the L-shaped point sequence with both legs of length 100
(well above the 60 pixel minimum) segments, in mode `all`, to the direction
sequence `[RIGHT, DOWN] = [6, 2]` -- that half of the scenario holds.  But
`findClosestMatchingGesture([6,2], [[6,2],[2,4]])` does not return the
template `[6,2]`: the source returns `[62]`, the single integer obtained by
running `int(...)` over the one-element group holding the joined string
"62" (and on a genuine list-of-ints input, `''.join(strokes)` raises
`TypeError`), contradicting the module docstring `gesture == [2, 4, 2]`
usage example. -/
theorem end_to_end_L_shape :
    getGesture defaultConfig lshapePoints Mode.all = [RIGHT, DOWN] ∧
    findClosestMatchingGesture [6, 2] [[6, 2], [2, 4]] maxsize = some [62] ∧
    (some [62] : Option (List Nat)) ≠ some [6, 2] := by
  refine ⟨?_, by decide, by decide⟩
  unfold getGesture
  rw [lshape_identify]
  rfl
